import Mathlib

set_option maxRecDepth 100000

/-!
Shallow embedding of the concurrent chunked aggregation engine of
`src/multithread/promises.cpp` (the "1BRC" repository), together with proofs
of the specified properties.

Modelling conventions:
* Bytes of the memory-mapped file are `Char` values; the mapped file is a
  `List Char`.
* C++ `float` values are modelled as exact rationals (`ℚ`); `int` counters as
  `ℤ`.  Binary floating-point rounding of arithmetic is abstracted away; the
  rounding performed by the `std::format` `{:.1f}` presentation is modelled
  explicitly (`rhe` below).
* `std::unordered_map<std::string, Stat>` is modelled as an association list
  with unique keys (`RecordsM`); `emplace` appends, in-place mutation maps
  over the entry with the matching key.
* Machine-integer wraparound that the code relies on (`std::string_view::npos
  + 1` overflowing to `0` in `updateRecords`) is modelled with explicit
  `% 2 ^ 64` arithmetic on `Nat`.
* `mmap` maps whole pages, so the byte one past the end of a file whose size
  is not a page multiple reads as `0`; the code dereferences that position
  (`*end` with `end == begin_ + size_`, and `end + 1` in `nextRecord`), which
  is modelled by `byteAtExt` / `OOBBYTE` returning `'\x00'`.
* Genuine undefined behaviour that does not merely read the zero page —
  the backward newline scan running below the start of the mapping, or
  constructing a span whose end pointer precedes its begin pointer — is
  modelled by `getChunk` returning `none`.
-/

/-- Running statistic for one station: `struct Stat` of `promises.cpp`
(`float min, max, sum; int nRecords`), with `float` modelled as `ℚ`. -/
structure Stat where
  min : ℚ
  max : ℚ
  sum : ℚ
  nRecords : ℤ
deriving DecidableEq

/-- Seed statistic `Stat{temp, temp, temp, 1}` created on the first sighting of
a key (`records.emplace` branch of `updateRecords`). -/
def statOfOne (t : ℚ) : Stat := ⟨t, t, t, 1⟩

/-- In-place update performed by `updateRecords` on a repeat sighting:
`min = min(min, t); sum += t; max = max(max, t); nRecords++`. -/
def statAdd (s : Stat) (t : ℚ) : Stat :=
  ⟨min s.min t, max s.max t, s.sum + t, s.nRecords + 1⟩

/-- Pairwise merge performed by the reducer loop of `createRecords`:
`min=min(a,b), max=max(a,b), sum=a+b, count=a+b`. -/
def mergeStat (a b : Stat) : Stat :=
  ⟨min a.min b.min, max a.max b.max, a.sum + b.sum, a.nRecords + b.nRecords⟩

/-- Model of `Records = std::unordered_map<std::string, Stat, ...>`:
an association list from key (byte string) to statistic. -/
abbrev RecordsM : Type := List (List Char × Stat)

/-- Model of `records.find(key)`: the statistic stored under `key`, if any. -/
def findRec (rs : RecordsM) (k : List Char) : Option Stat :=
  (List.find? (fun e => e.1 = k) rs).map Prod.snd

/-- One step of the reducer loop body of `createRecords` (lines 324–335):
if the key is absent insert the entry as-is, otherwise combine the stored
statistic with the incoming one via `mergeStat`. -/
def mergeOne (res : RecordsM) (e : List Char × Stat) : RecordsM :=
  match findRec res e.1 with
  | none => res ++ [e]
  | some _ => List.map (fun x => if x.1 = e.1 then (x.1, mergeStat x.2 e.2) else x) res

/-- The reducer fold of `createRecords`: every entry of one worker aggregate
`m` is folded into the running result. -/
def mergeInto (result m : RecordsM) : RecordsM := m.foldl mergeOne result

/-- Sequential fold of a list of temperatures for a single key, exactly as a
single worker would build it in `updateRecords`: seed with the first value,
then `statAdd` each subsequent value. -/
def foldStat (t : ℚ) (ts : List ℚ) : Stat := ts.foldl statAdd (statOfOne t)

/-- Byte of the mapped region at index `i`; index `content.length` is the
zero-filled `mmap` padding one past the end of the file, modelled as `'\x00'`
(the code reads it via `*end` when `end == begin_ + size_`). -/
def byteAtExt (s : List Char) (i : Nat) : Char := (s.get? i).getD (Char.ofNat 0)

/-- Backward newline scan `while (*end != '\n') end--;` of
`MemoryMap::getChunk`, started at index `i`: the largest `j ≤ i` whose byte is
`'\n'`, or `none` when the scan would run below the start of the mapping. -/
def findNlBack (s : List Char) : Nat → Option Nat
  | 0 => if byteAtExt s 0 = '\n' then some 0 else none
  | i + 1 => if byteAtExt s (i + 1) = '\n' then some (i + 1) else findNlBack s i

/-- State of `MemoryMap`: the immutable mapped bytes and the shared cursor
`current_` (as an offset from `begin_`). -/
structure MMap where
  content : List Char
  cursor : Nat
deriving DecidableEq

/-- Model of `MemoryMap::getChunk(bufferSize)` (lines 123–161).  Returns the
dispensed chunk and the updated state, or `none` when the C++ code would hit
undefined behaviour (backward scan below the mapping, or a span whose end
precedes its begin).  Mirrors the source exactly: first branch compares
`bufferSize` with the whole file size `size_`; empty-chunk sentinel when the
cursor is at end-of-file; otherwise `end = current_ + bufferSize` clamped to
`begin_ + size_`, stepped back once when `end + 1 == begin_ + size_`, then
scanned backward to a newline and advanced one past it. -/
def getChunk (bufferSize : Nat) (st : MMap) : Option (List Char × MMap) :=
  let size := st.content.length
  if bufferSize ≥ size then
    some (st.content.drop st.cursor, ⟨st.content, size⟩)
  else if st.cursor = size then
    some ([], st)
  else
    let end0 := st.cursor + bufferSize
    let end1 := if end0 > size then size else end0
    let end2 := if end1 + 1 = size then end1 - 1 else end1
    match findNlBack st.content end2 with
    | none => none
    | some e3 =>
      let end4 := e3 + 1
      if end4 < st.cursor then none
      else some ((st.content.drop st.cursor).take (end4 - st.cursor), ⟨st.content, end4⟩)

/-- Sequence of chunks a worker draws in the loop of `createRecords`
(`sp = m.getChunk(chunkSize); while (!sp.empty()) { ...; sp = m.getChunk(...) }`):
collects successive chunks until the empty-chunk sentinel.  `fuel` bounds the
number of calls; `none` on fuel exhaustion or undefined behaviour.  Under the
mutex the dispensed sequence is the same however many workers interleave. -/
def runChunks (bufferSize : Nat) : Nat → MMap → Option (List (List Char))
  | 0, _ => none
  | fuel + 1, st =>
    match getChunk bufferSize st with
    | none => none
    | some (c, st2) =>
      if c = [] then some []
      else
        match runChunks bufferSize fuel st2 with
        | none => none
        | some cs => some (c :: cs)

/-- Formalisation of "every line is at most 127 bytes (including its newline
terminator)": every 127-byte window lying inside the file contains a newline.
For newline-terminated content this is equivalent to every line (the 1BRC
bound: station name ≤ 100 bytes + `;` + value ≤ 6 bytes + `\n` < 128). -/
def shortLines (s : List Char) : Prop :=
  ∀ i < s.length, i + 127 ≤ s.length → ∃ k < i + 127, i ≤ k ∧ s.get? k = some '\n'

instance (s : List Char) : Decidable (shortLines s) := by
  unfold shortLines; infer_instance

/-- Index of the first byte satisfying `p`, as computed by `std::find` /
`std::string_view::find_first_of` over a byte range. -/
def findIdxFirst (p : Char → Bool) : List Char → Option Nat
  | [] => none
  | c :: cs => if p c then some 0 else (findIdxFirst p cs).map (· + 1)

/-- Byte one past the end of a chunk, read by `nextRecord`'s
`std::string_view(begin, end + 1)` when the chunk has no final newline.  For a
chunk ending at end-of-file this is the zero-filled `mmap` padding. -/
def OOBBYTE : Char := Char.ofNat 0

/-- Model of the `nextRecord` lambda of `updateRecords` (lines 212–216): the
prefix up to and including the first `'\n'`; when the span holds no newline,
`std::find` returns `sp.end()` and the constructed view spans the whole
remainder plus one out-of-bounds byte. -/
def nextRecord (sp : List Char) : List Char :=
  match findIdxFirst (· == '\n') sp with
  | some i => sp.take (i + 1)
  | none => sp ++ [OOBBYTE]

/-- Value of `std::string_view::npos` (`size_t(-1) = 2^64 - 1`). -/
def NPOS : Nat := 2 ^ 64 - 1

/-- Decimal digit test of the numeric parser. -/
def isDigitB (c : Char) : Bool := decide ('0' ≤ c) && decide (c ≤ '9')

/-- Numeric value of a digit string (most significant first). -/
def digitsVal (l : List Char) : ℕ := l.foldl (fun a c => 10 * a + (c.toNat - 48)) 0

/-- Exponent part after the mantissa: sign and digits following `e`/`E`; `0`
when absent or when no digit follows. -/
def parseExpTail (l : List Char) : ℤ :=
  let sgn : ℤ × List Char :=
    match l with
    | '+' :: r => (1, r)
    | '-' :: r => (-1, r)
    | _ => (1, l)
  let d := sgn.2.takeWhile isDigitB
  if d.isEmpty then 0 else sgn.1 * (digitsVal d : ℤ)

/-- Exponent of the `chars_format::general` grammar, if present. -/
def parseExp (l : List Char) : ℤ :=
  match l with
  | 'e' :: rest => parseExpTail rest
  | 'E' :: rest => parseExpTail rest
  | _ => 0

/-- Largest finite `float` value, `(2 - 2^-23) * 2^127`, as an exact
rational. -/
def fltMax : ℚ := (2 - (2 : ℚ) ^ (-23 : ℤ)) * 2 ^ (127 : ℕ)

/-- Model of `std::from_chars(first, last, temp)` with the default
`chars_format::general` grammar: an optional `'-'`, a non-empty digit sequence
optionally containing one `'.'`, and an optional exponent; no leading
whitespace or `'+'` is accepted, and parsing stops at the first byte that
cannot extend the number.  Returns the parsed value as an exact rational
(binary-float rounding of the value is abstracted away), or `none` when the
C++ call reports an error: no valid prefix (`errc::invalid_argument`) or a
magnitude beyond `float` range (`errc::result_out_of_range`).  IEEE
infinity/NaN literals and subnormal underflow are not modelled; no claim
exercises them. -/
def fromChars (l : List Char) : Option ℚ :=
  let sgn : Bool × List Char :=
    match l with
    | '-' :: r => (true, r)
    | _ => (false, l)
  let d1 := sgn.2.takeWhile isDigitB
  let r1 := sgn.2.dropWhile isDigitB
  let dd : List Char × List Char :=
    match r1 with
    | '.' :: r => (r.takeWhile isDigitB, r.dropWhile isDigitB)
    | _ => ([], r1)
  if d1.isEmpty && dd.1.isEmpty then none
  else
    let e := parseExp dd.2
    let mant : ℚ := (digitsVal d1 : ℚ) + (digitsVal dd.1 : ℚ) / (10 : ℚ) ^ dd.1.length
    let v0 : ℚ := mant * (10 : ℚ) ^ e
    let v : ℚ := if sgn.1 then -v0 else v0
    if v < -fltMax ∨ fltMax < v then none else some v

/-- Body of one iteration of the scan loop of `updateRecords` (lines 220–246)
applied to one extracted record: locate the first `';'` (`find_first_of`,
`npos` when absent), split into `place_sv = record.substr(0, sep)` and
`temp_sv = record.substr(sep + 1)` — with `size_t` wraparound, so a record
without `';'` yields `sep + 1 ≡ 0` and both views are the whole record — then
parse the temperature and fold it into the map, skipping the record when the
parse fails. -/
def processRecord (rs : RecordsM) (record : List Char) : RecordsM :=
  let sep : Nat :=
    match findIdxFirst (· == ';') record with
    | some i => i
    | none => NPOS
  let place := record.take sep
  let temp_sv := record.drop ((sep + 1) % 2 ^ 64)
  match fromChars temp_sv with
  | none => rs
  | some t =>
    match findRec rs place with
    | none => rs ++ [(place, statOfOne t)]
    | some _ => List.map (fun e => if e.1 = place then (e.1, statAdd e.2 t) else e) rs

/-- Scan loop of `updateRecords`: `while (begin < end)` extract the next
record, advance `begin` by its length, process it.  `fuel` bounds the number
of iterations; `sp.length` iterations always suffice (proved below). -/
def updateRecordsGo : Nat → List Char → RecordsM → RecordsM
  | 0, _, rs => rs
  | fuel + 1, sp, rs =>
    if sp = [] then rs
    else
      let record := nextRecord sp
      updateRecordsGo fuel (sp.drop record.length) (processRecord rs record)

/-- Model of `updateRecords(span, records)` (lines 208–247). -/
def updateRecords (sp : List Char) (rs : RecordsM) : RecordsM :=
  updateRecordsGo sp.length sp rs

/-- Lexicographic byte-wise comparison of keys, the order `std::ranges::sort`
uses on `std::string` via `operator<`. -/
def bytesLe : List Char → List Char → Bool
  | [], _ => true
  | _ :: _, [] => false
  | a :: as, b :: bs => if a < b then true else if b < a then false else bytesLe as bs

/-- Insertion step of the sort model. -/
def insertSorted (x : List Char) : List (List Char) → List (List Char)
  | [] => [x]
  | y :: ys => if bytesLe x y then x :: y :: ys else y :: insertSorted x ys

/-- Model of `sortStations` (lines 250–266): the keys of the map in ascending
byte-wise order (an insertion sort models `std::ranges::sort`; the keys of a
map are distinct, so the choice of comparison sort is immaterial). -/
def sortStations (rs : RecordsM) : List (List Char) :=
  (List.map Prod.fst rs).foldr insertSorted []

/-- Round a rational to the nearest integer, ties to even — the rounding
`std::format`'s fixed-precision presentation applies (the default
round-to-nearest FE_TONEAREST mode of `printf`-style formatting). -/
def rhe (q : ℚ) : ℤ :=
  let f := ⌊q⌋
  let r := q - (f : ℚ)
  if r < 1 / 2 then f
  else if 1 / 2 < r then f + 1
  else if f % 2 = 0 then f else f + 1

/-- Tenths digit value printed for `q` by `{:.1f}`: `q` scaled by ten and
rounded to the nearest integer, ties to even. -/
def dec1 (q : ℚ) : ℤ := rhe (10 * q)

/-- Rendering of one numeric field under the `{:.1f}` format specifier. -/
def fmt1 (q : ℚ) : String :=
  let n := dec1 q
  (if n < 0 then "-" else "") ++ toString (n.natAbs / 10) ++ "." ++ toString (n.natAbs % 10)

/-- Model of the `printStat` lambda of `printRecords` (lines 271–275): renders
`key=min/mean/max` for one key, with `mean = stat.sum / stat.nRecords`;
`Records::at` on a missing key throws, modelled as `none`. -/
def printStat (rs : RecordsM) (k : List Char) : Option String :=
  (findRec rs k).map fun st =>
    String.mk k ++ "=" ++ fmt1 st.min ++ "/" ++ fmt1 (st.sum / (st.nRecords : ℚ)) ++ "/" ++
      fmt1 st.max

/-- Model of `printRecords` (lines 268–287): sorted entries joined with
`", "` inside braces.  The loop bound is `std::prev(sortedStations.end())`:
on an empty aggregate that takes the predecessor of the begin iterator of an
empty vector — undefined behaviour, modelled as `none`. -/
def printRecords (rs : RecordsM) : Option String :=
  match sortStations rs with
  | [] => none
  | ks =>
    match ks.mapM (printStat rs) with
    | none => none
    | some entries => some ("\x7b" ++ String.intercalate ", " entries ++ "\x7d")

/-- Modelled from the spec: the claimed "round toward positive infinity at one
fractional digit" semantics for a printed field — the least tenth not below
the true rational value.  Stated only to be compared against the program's
rounding `dec1`. -/
def specCeilRound (q : ℚ) : ℤ := ⌈10 * q⌉

/-- Model of the generic `MoveOnly<T, empty>` wrapper (lines 51–75): just the
stored value. -/
structure MoveOnly (T : Type) where
  value : T
deriving DecidableEq

/-- Move construction `MoveOnly(MoveOnly&& other)`: the new wrapper takes
`other`'s value and `std::exchange` leaves the sentinel `empty` behind.
Returns (constructed wrapper, moved-from wrapper). -/
def moveConstruct {T : Type} (empty : T) (other : MoveOnly T) : MoveOnly T × MoveOnly T :=
  (⟨other.value⟩, ⟨empty⟩)

/-- Move assignment `operator=(MoveOnly&& other)`: the destination receives
`other`'s value and `other` is left holding the sentinel.
Returns (assigned-to wrapper, moved-from wrapper). -/
def moveAssign {T : Type} (empty : T) (_dst other : MoveOnly T) : MoveOnly T × MoveOnly T :=
  (⟨other.value⟩, ⟨empty⟩)

/-- Whether `FileHandler::~FileHandler` (lines 89–92) calls `close` on the
stored descriptor: only when `fdescr_ >= 0`. -/
def fhClosesFd (fd : MoveOnly ℤ) : Bool := decide (0 ≤ fd.value)

/-- Concrete 132-byte file content without a trailing newline: a 127-byte
first line followed by the record `B;1.0` that lacks its terminator. -/
def content132 : List Char := List.replicate 126 'a' ++ "\nB;1.0".toList

/-- Concrete 133-byte file content: the same with the final newline present. -/
def content133 : List Char := List.replicate 126 'a' ++ "\nB;1.0\n".toList

/-- Index at which the backward newline scan of `getChunk` starts (the value
of `end` after the clamping steps, before the `while` loop). -/
def scanStart (bufferSize : Nat) (st : MMap) : Nat :=
  let size := st.content.length
  let end0 := st.cursor + bufferSize
  let end1 := if end0 > size then size else end0
  if end1 + 1 = size then end1 - 1 else end1

/-! ### Helper lemmas about the backward newline scan -/

lemma byteAtExt_of_get? {s : List Char} {i : Nat} {c : Char} (h : s.get? i = some c) :
    byteAtExt s i = c := by
  simp only [byteAtExt, h, Option.getD_some]

lemma byteAtExt_past {s : List Char} {i : Nat} (h : s.length ≤ i) :
    byteAtExt s i = Char.ofNat 0 := by
  simp only [byteAtExt, List.get?_eq_none.2 h, Option.getD_none]

lemma get?_of_byteAtExt {s : List Char} {i : Nat} (hi : i < s.length)
    (h : byteAtExt s i = '\n') : s.get? i = some '\n' := by
  have h' := List.get?_eq_get hi
  rw [h', ← h]
  simp only [byteAtExt, h', Option.getD_some]

lemma findNlBack_le {s : List Char} {i j : Nat} (h : findNlBack s i = some j) : j ≤ i := by
  induction i with
  | zero =>
    by_cases hb : byteAtExt s 0 = '\n' <;> simp [findNlBack, hb] at h <;> omega
  | succ n ih =>
    by_cases hb : byteAtExt s (n + 1) = '\n'
    · simp [findNlBack, hb] at h; omega
    · simp only [findNlBack, hb, if_false] at h
      exact le_trans (ih h) (by omega)

lemma findNlBack_nl {s : List Char} {i j : Nat} (h : findNlBack s i = some j) :
    byteAtExt s j = '\n' := by
  induction i with
  | zero =>
    by_cases hb : byteAtExt s 0 = '\n' <;> simp [findNlBack, hb] at h
    rwa [← h]
  | succ n ih =>
    by_cases hb : byteAtExt s (n + 1) = '\n'
    · simp [findNlBack, hb] at h; rwa [← h]
    · simp only [findNlBack, hb, if_false] at h
      exact ih h

lemma findNlBack_self {s : List Char} {i : Nat} (h : byteAtExt s i = '\n') :
    findNlBack s i = some i := by
  cases i with
  | zero => simp [findNlBack, h]
  | succ n => simp [findNlBack, h]

lemma findNlBack_isSome {s : List Char} {i k : Nat} (hk : k ≤ i)
    (hnl : byteAtExt s k = '\n') : ∃ j, findNlBack s i = some j := by
  induction i with
  | zero =>
    have : k = 0 := by omega
    subst this
    exact ⟨0, findNlBack_self hnl⟩
  | succ n ih =>
    by_cases hb : byteAtExt s (n + 1) = '\n'
    · exact ⟨n + 1, findNlBack_self hb⟩
    · have hk' : k ≤ n := by
        by_contra hcon
        have hkn : k = n + 1 := by omega
        exact hb (hkn ▸ hnl)
      rcases ih hk' with ⟨j, hj⟩
      exact ⟨j, by simp only [findNlBack, hb, if_false]; exact hj⟩

lemma findNlBack_maximal {s : List Char} {i j k : Nat} (h : findNlBack s i = some j)
    (hk : k ≤ i) (hnl : byteAtExt s k = '\n') : k ≤ j := by
  induction i with
  | zero => omega
  | succ n ih =>
    by_cases hb : byteAtExt s (n + 1) = '\n'
    · simp [findNlBack, hb] at h; omega
    · simp only [findNlBack, hb, if_false] at h
      have hk' : k ≤ n := by
        by_contra hcon
        have hkn : k = n + 1 := by omega
        exact hb (hkn ▸ hnl)
      exact ih h hk'

lemma getLast?_take_get? {l : List Char} {k : Nat} (hk : 0 < k) (hkl : k ≤ l.length) :
    (l.take k).getLast? = l.get? (k - 1) := by
  rw [List.getLast?_eq_get?, List.length_take, Nat.min_eq_left hkl,
    List.get?_take (by omega)]

/-! ### Branch characterisations of `getChunk` -/

lemma getChunk_b1 {bs : Nat} {st : MMap} (h : bs ≥ st.content.length) :
    getChunk bs st = some (st.content.drop st.cursor, ⟨st.content, st.content.length⟩) := by
  simp only [getChunk]
  rw [if_pos h]

lemma getChunk_b2 {bs : Nat} {st : MMap} (h1 : ¬ bs ≥ st.content.length)
    (h2 : st.cursor = st.content.length) : getChunk bs st = some ([], st) := by
  simp only [getChunk]
  rw [if_neg h1, if_pos h2]

lemma getChunk_b3 {bs : Nat} {st : MMap} (h1 : ¬ bs ≥ st.content.length)
    (h2 : st.cursor ≠ st.content.length) :
    getChunk bs st =
      match findNlBack st.content (scanStart bs st) with
      | none => none
      | some e3 =>
        if e3 + 1 < st.cursor then none
        else some ((st.content.drop st.cursor).take (e3 + 1 - st.cursor), ⟨st.content, e3 + 1⟩) := by
  simp only [getChunk, scanStart]
  rw [if_neg h1, if_neg h2]

lemma scanStart_le {bs : Nat} {st : MMap} : scanStart bs st ≤ st.content.length := by
  simp only [scanStart]
  split_ifs <;> omega

/-- C1. For input whose lines all fit in 127 bytes and a requested chunk size
of at least 128 bytes, every non-empty chunk `getChunk` returns, except
possibly the final chunk of the file (the one whose handout moves the cursor
to end-of-file), has the newline byte as its last byte. -/
theorem getChunk_nonfinal_ends_newline (s : List Char) (bs c : Nat) (chunk : List Char)
    (st2 : MMap) (hbs : 128 ≤ bs) (hshort : shortLines s)
    (h : getChunk bs ⟨s, c⟩ = some (chunk, st2)) (hne : chunk ≠ [])
    (hnf : st2.cursor < s.length) : chunk.getLast? = some '\n' := by
  by_cases h1 : bs ≥ (⟨s, c⟩ : MMap).content.length
  · rw [getChunk_b1 h1, Option.some.injEq, Prod.mk.injEq] at h
    rcases h with ⟨-, hst2⟩
    rw [← hst2] at hnf
    simp at hnf
  · by_cases h2 : (⟨s, c⟩ : MMap).cursor = (⟨s, c⟩ : MMap).content.length
    · rw [getChunk_b2 h1 h2, Option.some.injEq, Prod.mk.injEq] at h
      exact absurd h.1.symm hne
    · rw [getChunk_b3 h1 h2] at h
      dsimp only at h
      rcases hfe : findNlBack s (scanStart bs ⟨s, c⟩) with - | e3
      · rw [hfe] at h
        cases h
      · rw [hfe] at h
        dsimp only at h
        by_cases h4 : e3 + 1 < c
        · rw [if_pos h4] at h
          cases h
        · rw [if_neg h4] at h
          rw [Option.some.injEq, Prod.mk.injEq] at h
          rcases h with ⟨hchunk, hst2⟩
          have hcur : st2.cursor = e3 + 1 := by rw [← hst2]
          have he3len : e3 + 1 ≤ s.length := by
            rw [hcur] at hnf
            omega
          have hnl := findNlBack_nl hfe
          have hget := get?_of_byteAtExt (by omega) hnl
          have hk : 0 < e3 + 1 - c := by
            by_contra hk0
            have hz : e3 + 1 - c = 0 := by omega
            rw [hz] at hchunk
            simp at hchunk
            exact hne hchunk
          have hcs : c < s.length := by
            by_contra hcs
            rw [List.drop_eq_nil_of_le (by omega)] at hchunk
            simp at hchunk
            exact hne hchunk
          rw [← hchunk, getLast?_take_get? hk (by rw [List.length_drop]; omega),
            List.get?_drop]
          have he : c + (e3 + 1 - c - 1) = e3 := by omega
          rw [he, hget]

/-- Witness for C1: on the concrete 133-byte file, the first dispensed chunk
is the 127-byte first line, its cursor stops before end-of-file, and its last
byte is the newline. -/
theorem getChunk_nonfinal_ends_newline_applied :
    (List.replicate 126 'a' ++ ['\n']).getLast? = some '\n' :=
  getChunk_nonfinal_ends_newline content133 128 0
    (List.replicate 126 'a' ++ ['\n']) ⟨content133, 127⟩
    (by decide) (by decide) (by decide) (by decide) (by decide)

/-- Counterexample for C5: at the dispenser state of `content132` (no trailing
newline) with the cursor past the last newline, only 5 bytes remain — fewer
than `maxSize = 128` — yet `getChunk` returns the empty chunk, not the
remaining bytes: the final unterminated record is never handed out. -/
theorem getChunk_tail_not_drained :
    content132.length - 127 ≤ 128 ∧
      (getChunk 128 ⟨content132, 127⟩).map Prod.fst = some [] ∧
      content132.drop 127 ≠ [] := by
  decide

/-- C5 as amended: when the remaining bytes fit in `maxSize` AND in addition
either `maxSize` is at least the whole file size (first branch of `getChunk`)
or the file's last byte is a newline, `getChunk` returns all remaining bytes
in one chunk and every subsequent call returns the empty chunk. -/
theorem getChunk_drains_tail (bs : Nat) (st : MMap) (hc : st.cursor ≤ st.content.length)
    (hrem : st.content.length - st.cursor ≤ bs)
    (hok : st.content.length ≤ bs ∨ st.content.getLast? = some '\n') :
    ∃ st2, getChunk bs st = some (st.content.drop st.cursor, st2) ∧
      st2.content = st.content ∧ st2.cursor = st.content.length ∧
      (getChunk bs st2).map Prod.fst = some [] := by
  by_cases h1 : bs ≥ st.content.length
  · refine ⟨⟨st.content, st.content.length⟩, getChunk_b1 h1, rfl, rfl, ?_⟩
    rw [@getChunk_b1 bs ⟨st.content, st.content.length⟩ h1]
    simp [List.drop_length]
  · by_cases h2 : st.cursor = st.content.length
    · refine ⟨st, ?_, rfl, h2, ?_⟩
      · rw [getChunk_b2 h1 h2, h2, List.drop_length]
      · rw [getChunk_b2 h1 h2]
        rfl
    · rcases hok with hok | hlast
      · exact absurd hok h1
      have hsize1 : 1 ≤ st.content.length := by
        cases hl : st.content with
        | nil => rw [hl] at hlast; simp at hlast
        | cons a l => simp
      have hcur : st.cursor < st.content.length := lt_of_le_of_ne hc h2
      have hss : scanStart bs st = st.content.length := by
        simp only [scanStart]
        have h0 : st.content.length ≤ st.cursor + bs := by omega
        have h1' : ¬ st.content.length ≤ bs := h1
        split_ifs <;> omega
      have hnl : byteAtExt st.content (st.content.length - 1) = '\n' := by
        apply byteAtExt_of_get?
        rw [← List.getLast?_eq_get?]
        exact hlast
      have hnotend : byteAtExt st.content st.content.length ≠ '\n' := by
        rw [byteAtExt_past le_rfl]
        decide
      obtain ⟨m, hm⟩ : ∃ m, st.content.length = m + 1 := ⟨st.content.length - 1, by omega⟩
      have hnotend2 : byteAtExt st.content (m + 1) ≠ '\n' := by rw [← hm]; exact hnotend
      have hnl2 : byteAtExt st.content m = '\n' := by
        have hm1 : st.content.length - 1 = m := by omega
        rw [← hm1]
        exact hnl
      have hfind : findNlBack st.content (m + 1) = some m := by
        rw [findNlBack, if_neg hnotend2]
        exact findNlBack_self hnl2
      refine ⟨⟨st.content, st.content.length⟩, ?_, rfl, rfl, ?_⟩
      · rw [getChunk_b3 h1 h2]
        have hss2 : scanStart bs st = m + 1 := by rw [hss, hm]
        rw [hss2, hfind]
        dsimp only
        rw [if_neg (by omega)]
        have htake : (st.content.drop st.cursor).take (m + 1 - st.cursor) =
            st.content.drop st.cursor := by
          apply List.take_of_length_le
          rw [List.length_drop]
          omega
        rw [htake, ← hm]
      · rw [@getChunk_b2 bs ⟨st.content, st.content.length⟩ h1 rfl]
        rfl

/-- Witness for the amended C5 at a concrete state: 6 bytes remain of the
newline-terminated 133-byte file; `getChunk` hands them all out and the next
call returns the empty sentinel. -/
theorem getChunk_drains_tail_applied :
    ∃ st2, getChunk 128 ⟨content133, 127⟩ = some (content133.drop 127, st2) ∧
      st2.content = content133 ∧ st2.cursor = content133.length ∧
      (getChunk 128 st2).map Prod.fst = some [] :=
  getChunk_drains_tail 128 ⟨content133, 127⟩ (by decide) (by decide) (Or.inr (by decide))

/-! ### Chunk coverage (C2) -/

lemma shortLines_window {s : List Char} (hshort : shortLines s) {c : Nat}
    (hc : c + 127 ≤ s.length) : ∃ k, c ≤ k ∧ k < c + 127 ∧ s.get? k = some '\n' := by
  rcases hshort c (by omega) hc with ⟨k, hklt, hck, hget⟩
  exact ⟨k, hck, hklt, hget⟩

/-- In the scanning branch of `getChunk`, under short lines and a trailing
newline, the backward scan succeeds at a newline position at or after the
cursor and inside the file. -/
lemma getChunk_scan_exists {s : List Char} {bs c : Nat} (hbs : 128 ≤ bs)
    (hshort : shortLines s) (hlast : s.getLast? = some '\n')
    (h1 : ¬ s.length ≤ bs) (hc : c < s.length) :
    ∃ e3, findNlBack s (scanStart bs ⟨s, c⟩) = some e3 ∧ c ≤ e3 ∧ e3 < s.length := by
  have hE : ∃ k, c ≤ k ∧ k ≤ scanStart bs ⟨s, c⟩ ∧ k < s.length ∧ byteAtExt s k = '\n' := by
    by_cases h0 : s.length ≤ c + bs
    · have hEeq : scanStart bs ⟨s, c⟩ = s.length := by
        simp only [scanStart]
        split_ifs <;> omega
      refine ⟨s.length - 1, by omega, by omega, by omega, ?_⟩
      apply byteAtExt_of_get?
      rw [← List.getLast?_eq_get?]
      exact hlast
    · have hlow : c + bs - 1 ≤ scanStart bs ⟨s, c⟩ := by
        simp only [scanStart]
        split_ifs <;> omega
      rcases @shortLines_window s hshort c (by omega) with ⟨k, hck, hklt, hget⟩
      exact ⟨k, hck, by omega, by omega, byteAtExt_of_get? hget⟩
  rcases hE with ⟨k, hck, hkE, hklen, hknl⟩
  rcases findNlBack_isSome hkE hknl with ⟨j, hj⟩
  refine ⟨j, hj, le_trans hck (findNlBack_maximal hj hkE hknl), ?_⟩
  by_contra hjlen
  have hnl := findNlBack_nl hj
  rw [byteAtExt_past (by omega)] at hnl
  exact absurd hnl (by decide)

/-- Induction core: from any cursor position, with enough fuel, the worker
loop collects chunks whose in-order concatenation is exactly the rest of the
file. -/
lemma runChunks_join {s : List Char} {bs : Nat} (hbs : 128 ≤ bs)
    (hshort : shortLines s) (hlast : s.getLast? = some '\n') :
    ∀ fuel c, c ≤ s.length → s.length - c < fuel →
      ∃ cs, runChunks bs fuel ⟨s, c⟩ = some cs ∧ cs.join = s.drop c := by
  intro fuel
  induction fuel with
  | zero =>
    intro c hc hf
    omega
  | succ n ih =>
    intro c hc hf
    by_cases h1 : bs ≥ s.length
    · by_cases hcs : s.drop c = []
      · refine ⟨[], ?_, by rw [hcs]; rfl⟩
        rw [runChunks, getChunk_b1 h1]
        dsimp only
        rw [if_pos hcs]
      · have hclen : c < s.length := by
          by_contra hcl
          exact hcs (List.drop_eq_nil_of_le (by omega))
        rcases ih s.length le_rfl (by omega) with ⟨cs, hrun, hjoin⟩
        refine ⟨s.drop c :: cs, ?_, ?_⟩
        · rw [runChunks, getChunk_b1 h1]
          dsimp only
          rw [if_neg hcs, hrun]
        · show s.drop c ++ cs.join = s.drop c
          rw [hjoin, List.drop_length, List.append_nil]
    · by_cases h2 : c = s.length
      · refine ⟨[], ?_, by rw [h2, List.drop_length]; rfl⟩
        rw [runChunks, getChunk_b2 h1 h2]
        dsimp only
        rw [if_pos rfl]
      · have hclt : c < s.length := by omega
        rcases getChunk_scan_exists hbs hshort hlast h1 hclt with ⟨e3, hfe, hce3, he3len⟩
        have hb3 := @getChunk_b3 bs ⟨s, c⟩ h1 h2
        rw [hfe] at hb3
        dsimp only at hb3
        rw [if_neg (by omega)] at hb3
        have hne : (s.drop c).take (e3 + 1 - c) ≠ [] := by
          rw [← List.length_pos, List.length_take, List.length_drop]
          omega
        rcases ih (e3 + 1) (by omega) (by omega) with ⟨cs, hrun, hjoin⟩
        refine ⟨(s.drop c).take (e3 + 1 - c) :: cs, ?_, ?_⟩
        · rw [runChunks, hb3]
          dsimp only
          rw [if_neg hne, hrun]
        · show (s.drop c).take (e3 + 1 - c) ++ cs.join = s.drop c
          rw [hjoin]
          have hdd : s.drop (e3 + 1) = (s.drop c).drop (e3 + 1 - c) := by
            rw [List.drop_drop]
            congr 1
            omega
          rw [hdd, List.take_append_drop]

/-- C2 as amended: for every file content that ends with a newline and whose
lines are at most 127 bytes, with `maxSize ≥ 128`, the successive chunks
returned until the empty sentinel concatenate, in handout order, to exactly
the file's byte range — no gaps, no overlaps, full coverage.  (Each chunk is
the slice from the shared cursor to the new cursor, so this equality is the
boundary-coverage property.) -/
theorem runChunks_covers_file (s : List Char) (bs : Nat) (hbs : 128 ≤ bs)
    (hshort : shortLines s) (hlast : s.getLast? = some '\n') :
    ∃ cs, runChunks bs (s.length + 1) ⟨s, 0⟩ = some cs ∧ cs.join = s := by
  rcases runChunks_join hbs hshort hlast (s.length + 1) 0 (by omega) (by omega) with
    ⟨cs, hrun, hjoin⟩
  exact ⟨cs, hrun, by rw [hjoin, List.drop_zero]⟩

/-- Witness for the amended C2 on the concrete newline-terminated 133-byte
file (two chunks are handed out: the 127-byte line, then the 6-byte line). -/
theorem runChunks_covers_file_applied :
    ∃ cs, runChunks 128 (content133.length + 1) ⟨content133, 0⟩ = some cs ∧
      cs.join = content133 :=
  runChunks_covers_file content133 128 (by decide) (by decide) (by decide)

/-- Counterexample for C2 as stated: on the 132-byte file without a trailing
newline, the dispensed chunks (one 127-byte chunk, then the empty sentinel
with the cursor still at offset 127) concatenate to strictly less than the
file — the last 5 bytes are never handed out. -/
theorem runChunks_misses_final_record :
    (runChunks 128 3 ⟨content132, 0⟩).map List.join =
        some (List.replicate 126 'a' ++ ['\n']) ∧
      List.replicate 126 'a' ++ ['\n'] ≠ content132 := by
  decide

/-! ### Reducer merge correctness (C3) -/

lemma findRec_cons (k0 : List Char) (v : Stat) (rs : RecordsM) (k : List Char) :
    findRec ((k0, v) :: rs) k = if k0 = k then some v else findRec rs k := by
  simp only [findRec, List.find?_cons]
  by_cases h : k0 = k
  · simp [h]
  · simp [h]

lemma findRec_eq_none {rs : RecordsM} {k : List Char} (h : k ∉ List.map Prod.fst rs) :
    findRec rs k = none := by
  induction rs with
  | nil => rfl
  | cons x xs ih =>
    obtain ⟨k0, v⟩ := x
    show findRec ((k0, v) :: xs) k = none
    rw [findRec_cons]
    simp only [List.map_cons, List.mem_cons] at h
    push_neg at h
    rw [if_neg (fun hh => h.1 hh.symm), ih h.2]

lemma findRec_append_single (rs : RecordsM) (e : List Char × Stat) (k : List Char) :
    findRec (rs ++ [e]) k =
      match findRec rs k with
      | some v => some v
      | none => if e.1 = k then some e.2 else none := by
  induction rs with
  | nil =>
    obtain ⟨k0, v⟩ := e
    show findRec [(k0, v)] k = _
    rw [findRec_cons]
    by_cases h : k0 = k <;> simp [findRec, h]
  | cons x xs ih =>
    obtain ⟨k0, v⟩ := x
    show findRec ((k0, v) :: (xs ++ [e])) k = _
    rw [findRec_cons, findRec_cons]
    by_cases h : k0 = k
    · rw [if_pos h, if_pos h]
    · rw [if_neg h, if_neg h, ih]

lemma findRec_map_merge (rs : RecordsM) (k0 : List Char) (v : Stat) (k : List Char) :
    findRec (List.map (fun x => if x.1 = k0 then (x.1, mergeStat x.2 v) else x) rs) k =
      if k0 = k then (findRec rs k).map (fun a => mergeStat a v) else findRec rs k := by
  induction rs with
  | nil => by_cases h : k0 = k <;> simp [findRec, h]
  | cons x xs ih =>
    obtain ⟨kx, vx⟩ := x
    by_cases hx0 : kx = k0
    · show findRec ((if kx = k0 then (kx, mergeStat vx v) else (kx, vx)) :: _) k = _
      rw [if_pos hx0]
      rw [findRec_cons, findRec_cons]
      by_cases hxk : kx = k
      · rw [if_pos hxk, if_pos hxk, if_pos (hx0.symm.trans hxk)]
        rfl
      · rw [if_neg hxk, if_neg hxk, ih]
    · show findRec ((if kx = k0 then (kx, mergeStat vx v) else (kx, vx)) :: _) k = _
      rw [if_neg hx0]
      rw [findRec_cons, findRec_cons]
      by_cases hxk : kx = k
      · rw [if_pos hxk, if_pos hxk, if_neg (fun hh => hx0 (hxk.trans hh.symm))]
      · rw [if_neg hxk, if_neg hxk, ih]

lemma findRec_mergeOne (res : RecordsM) (e : List Char × Stat) (k : List Char) :
    findRec (mergeOne res e) k =
      if e.1 = k then
        match findRec res k with
        | none => some e.2
        | some a => some (mergeStat a e.2)
      else findRec res k := by
  unfold mergeOne
  by_cases hek : e.1 = k
  · subst hek
    cases hf : findRec res e.1 with
    | none => simp [hf, findRec_append_single]
    | some a => simp [hf, findRec_map_merge]
  · cases hf : findRec res e.1 with
    | none =>
      simp only [hf, findRec_append_single, if_neg hek]
      cases hk : findRec res k <;> rfl
    | some a =>
      simp only [hf, findRec_map_merge, if_neg hek]

lemma findRec_mergeInto (A B : RecordsM) (k : List Char)
    (hB : (List.map Prod.fst B).Nodup) :
    findRec (mergeInto A B) k =
      match findRec A k, findRec B k with
      | some a, some b => some (mergeStat a b)
      | some a, none => some a
      | none, some b => some b
      | none, none => none := by
  induction B generalizing A with
  | nil =>
    show findRec A k = _
    cases hA : findRec A k <;> rfl
  | cons e B' ih =>
    simp only [List.map_cons, List.nodup_cons] at hB
    have he : e.1 ∉ List.map Prod.fst B' := hB.1
    show findRec (mergeInto (mergeOne A e) B') k = _
    rw [ih (mergeOne A e) hB.2, findRec_mergeOne]
    obtain ⟨k0, v⟩ := e
    dsimp only at he ⊢
    by_cases hek : k0 = k
    · subst hek
      rw [if_pos rfl, findRec_cons, if_pos rfl, findRec_eq_none he]
      cases hA : findRec A k0 <;> rfl
    · rw [if_neg hek, findRec_cons, if_neg hek]

lemma mergeStat_statOfOne (a : Stat) (t : ℚ) : mergeStat a (statOfOne t) = statAdd a t := rfl

lemma foldl_statAdd_merge (a b : Stat) (l : List ℚ) :
    List.foldl statAdd (mergeStat a b) l = mergeStat a (List.foldl statAdd b l) := by
  induction l generalizing b with
  | nil => rfl
  | cons t ts ih =>
    rw [List.foldl_cons, List.foldl_cons, ← ih]
    have hstep : statAdd (mergeStat a b) t = mergeStat a (statAdd b t) := by
      unfold statAdd mergeStat
      dsimp only
      rw [min_assoc, max_assoc, add_assoc, add_assoc]
    rw [hstep]

lemma foldStat_append (t₁ t₂ : ℚ) (l₁ l₂ : List ℚ) :
    foldStat t₁ (l₁ ++ t₂ :: l₂) = mergeStat (foldStat t₁ l₁) (foldStat t₂ l₂) := by
  unfold foldStat
  rw [List.foldl_append, List.foldl_cons, ← foldl_statAdd_merge, mergeStat_statOfOne]

/-- C3. The reducer of `createRecords` merges worker aggregates key by key: a
key present in only one aggregate keeps its statistic unchanged, and a key
present in both is combined with `mergeStat` (componentwise min/max/sum/count);
consequently a statistic merged from two partial sequential folds equals the
sequential fold of the concatenated value sequence for that key. -/
theorem reduce_merge_correct :
    (∀ (A B : RecordsM) (k : List Char), (List.map Prod.fst B).Nodup →
      findRec (mergeInto A B) k =
        match findRec A k, findRec B k with
        | some a, some b => some (mergeStat a b)
        | some a, none => some a
        | none, some b => some b
        | none, none => none) ∧
    (∀ (t₁ t₂ : ℚ) (l₁ l₂ : List ℚ),
      mergeStat (foldStat t₁ l₁) (foldStat t₂ l₂) = foldStat t₁ (l₁ ++ t₂ :: l₂)) :=
  ⟨findRec_mergeInto, fun t₁ t₂ l₁ l₂ => (foldStat_append t₁ t₂ l₁ l₂).symm⟩

/-- Witness for C3 at concrete aggregates: key `A` present in both maps is
combined with `mergeStat`. -/
theorem reduce_merge_correct_applied :
    findRec (mergeInto [(['A'], statOfOne 1)] [(['A'], statOfOne 2), (['B'], statOfOne 3)])
        ['A'] = some (mergeStat (statOfOne 1) (statOfOne 2)) :=
  (reduce_merge_correct.1 [(['A'], statOfOne 1)] [(['A'], statOfOne 2), (['B'], statOfOne 3)]
    ['A'] (by decide)).trans (by with_unfolding_all decide)

/-! ### Record scan termination (C9) and the record parser (C4, C8) -/

lemma nextRecord_pos (sp : List Char) (h : sp ≠ []) : 1 ≤ (nextRecord sp).length := by
  unfold nextRecord
  cases hf : findIdxFirst (· == '\n') sp with
  | none => simp
  | some i =>
    simp only [List.length_take]
    have hl : 0 < sp.length := List.length_pos.2 h
    omega

lemma updateRecordsGo_nil (fuel : Nat) (rs : RecordsM) : updateRecordsGo fuel [] rs = rs := by
  cases fuel with
  | zero => rfl
  | succ n => rw [updateRecordsGo, if_pos rfl]

lemma updateRecordsGo_fuel : ∀ (n m : Nat) (sp : List Char) (rs : RecordsM),
    sp.length ≤ n → sp.length ≤ m → updateRecordsGo n sp rs = updateRecordsGo m sp rs := by
  intro n
  induction n with
  | zero =>
    intro m sp rs hn hm
    have hsp : sp = [] := List.length_eq_zero.1 (by omega)
    subst hsp
    rw [updateRecordsGo_nil, updateRecordsGo_nil]
  | succ n ih =>
    intro m sp rs hn hm
    by_cases hsp : sp = []
    · subst hsp
      rw [updateRecordsGo_nil, updateRecordsGo_nil]
    · have hlen : 1 ≤ sp.length := List.length_pos.2 hsp
      obtain ⟨m', rfl⟩ : ∃ m', m = m' + 1 := ⟨m - 1, by omega⟩
      rw [updateRecordsGo, updateRecordsGo, if_neg hsp, if_neg hsp]
      show updateRecordsGo n (sp.drop (nextRecord sp).length) (processRecord rs (nextRecord sp)) =
        updateRecordsGo m' (sp.drop (nextRecord sp).length) (processRecord rs (nextRecord sp))
      have hrl := nextRecord_pos sp hsp
      apply ih
      · rw [List.length_drop]
        omega
      · rw [List.length_drop]
        omega

/-- C9. The scan of `updateRecords` terminates on every input span: every
record `nextRecord` extracts from a non-empty span has length at least one, so
the scan index strictly increases; consequently `sp.length` iterations always
suffice — running the loop with any larger iteration bound gives the same
result as `updateRecords` itself. -/
theorem updateRecords_scan_terminates :
    (∀ sp : List Char, sp ≠ [] → 1 ≤ (nextRecord sp).length) ∧
    (∀ (fuel : Nat) (sp : List Char) (rs : RecordsM), sp.length ≤ fuel →
      updateRecordsGo fuel sp rs = updateRecords sp rs) :=
  ⟨nextRecord_pos, fun fuel sp rs h => updateRecordsGo_fuel fuel sp.length sp rs h le_rfl⟩

/-- Witness for C9 at concrete inputs. -/
theorem updateRecords_scan_terminates_applied :
    1 ≤ (nextRecord ['a']).length ∧
      updateRecordsGo 10 ("K;1.0\n".toList) [] = updateRecords ("K;1.0\n".toList) [] :=
  ⟨updateRecords_scan_terminates.1 ['a'] (by decide),
   updateRecords_scan_terminates.2 10 ("K;1.0\n".toList) [] (by decide)⟩

/-- C4 is a code bug: a line with no `';'` separator is not skipped when its
text parses as a number.  `find_first_of` returns `npos`, `substr(npos + 1)`
wraps around to `substr(0)`, `from_chars` parses the leading `1.0`, and the
whole line — trailing newline included — is inserted as a key with value
`1.0`.  The aggregate is not the empty one the claim (and the spec's
malformed-line-tolerance property) requires. -/
theorem missing_separator_creates_key :
    (';' ∉ "1.0\n".toList) ∧
      updateRecords ("1.0\n".toList) [] = [("1.0\n".toList, statOfOne 1)] ∧
      updateRecords ("1.0\n".toList) [] ≠ [] := by
  with_unfolding_all decide

lemma findIdxFirst_cons_true {p : Char → Bool} {c : Char} (h : p c = true) (l : List Char) :
    findIdxFirst p (c :: l) = some 0 := by
  unfold findIdxFirst
  rw [if_pos h]

lemma findIdxFirst_append_none {p : Char → Bool} {l : List Char}
    (h : ∀ x ∈ l, p x = false) (r : List Char) :
    findIdxFirst p (l ++ r) = (findIdxFirst p r).map (· + l.length) := by
  induction l with
  | nil =>
    rw [List.nil_append]
    cases findIdxFirst p r with
    | none => rfl
    | some j => rfl
  | cons c cs ih =>
    have hc : p c = false := h c (by simp)
    rw [List.cons_append]
    show (if p c then some 0 else (findIdxFirst p (cs ++ r)).map (· + 1)) = _
    rw [if_neg (by rw [hc]; exact Bool.false_ne_true), ih (fun x hx => h x (by simp [hx]))]
    cases findIdxFirst p r with
    | none => rfl
    | some j =>
      simp only [Option.map_some', List.length_cons, Option.some.injEq]
      omega

/-- C8 as amended: a record `key;value\n` is folded exactly when
`std::from_chars` succeeds on the value bytes (a parseable numeric prefix of
any shape, within `float` range); no "exactly one fractional digit" shape
check and no `[-99.9, 99.9]` range check is performed, so out-of-range or
differently shaped numeric values are folded rather than skipped. -/
theorem updateRecords_single_record (key value : List Char)
    (hks : ';' ∉ key) (hkn : '\n' ∉ key) (hvn : '\n' ∉ value)
    (hlen : key.length + 1 < 2 ^ 64) :
    updateRecords (key ++ ';' :: (value ++ ['\n'])) [] =
      match fromChars (value ++ ['\n']) with
      | none => []
      | some t => [(key, statOfOne t)] := by
  have hkeyn : ∀ x ∈ key, (x == '\n') = false :=
    fun x hx => beq_eq_false_iff_ne.2 (fun hh => hkn (hh ▸ hx))
  have hvaln : ∀ x ∈ value, (x == '\n') = false :=
    fun x hx => beq_eq_false_iff_ne.2 (fun hh => hvn (hh ▸ hx))
  have hkeys : ∀ x ∈ key, (x == ';') = false :=
    fun x hx => beq_eq_false_iff_ne.2 (fun hh => hks (hh ▸ hx))
  have h1 : findIdxFirst (· == '\n') (value ++ ['\n']) = some value.length := by
    rw [findIdxFirst_append_none hvaln, findIdxFirst_cons_true (by decide)]
    simp
  have h2 : findIdxFirst (· == '\n') (';' :: (value ++ ['\n'])) = some (value.length + 1) := by
    show (if (';' == '\n') = true then some 0
        else (findIdxFirst (· == '\n') (value ++ ['\n'])).map (· + 1)) = _
    rw [if_neg (by decide), h1]
    rfl
  have hnl : findIdxFirst (· == '\n') (key ++ ';' :: (value ++ ['\n'])) =
      some (value.length + 1 + key.length) := by
    rw [findIdxFirst_append_none hkeyn, h2]
    rfl
  have hlensp : (key ++ ';' :: (value ++ ['\n'])).length = key.length + value.length + 2 := by
    simp only [List.length_append, List.length_cons, List.length_nil]
    omega
  have hne : key ++ ';' :: (value ++ ['\n']) ≠ [] := by simp
  have hrec : nextRecord (key ++ ';' :: (value ++ ['\n'])) =
      key ++ ';' :: (value ++ ['\n']) := by
    simp only [nextRecord, hnl]
    rw [show value.length + 1 + key.length + 1 = (key ++ ';' :: (value ++ ['\n'])).length by
      rw [hlensp]; omega]
    exact List.take_length _
  obtain ⟨f, hf⟩ : ∃ f, (key ++ ';' :: (value ++ ['\n'])).length = f + 1 :=
    ⟨key.length + value.length + 1, by rw [hlensp]⟩
  unfold updateRecords
  rw [hf, updateRecordsGo, if_neg hne]
  show updateRecordsGo f
      ((key ++ ';' :: (value ++ ['\n'])).drop
        (nextRecord (key ++ ';' :: (value ++ ['\n']))).length)
      (processRecord [] (nextRecord (key ++ ';' :: (value ++ ['\n'])))) = _
  rw [hrec, List.drop_length, updateRecordsGo_nil]
  have hsep : findIdxFirst (· == ';') (key ++ ';' :: (value ++ ['\n'])) = some key.length := by
    rw [findIdxFirst_append_none hkeys, findIdxFirst_cons_true (by decide)]
    simp
  simp only [processRecord, hsep]
  have hmod : (key.length + 1) % 2 ^ 64 = key.length + 1 := Nat.mod_eq_of_lt hlen
  rw [hmod]
  have hplace : (key ++ ';' :: (value ++ ['\n'])).take key.length = key := List.take_left _ _
  have hdrop : (key ++ ';' :: (value ++ ['\n'])).drop (key.length + 1) = value ++ ['\n'] := by
    rw [List.drop_append]
    rfl
  rw [hplace, hdrop]
  cases hfc : fromChars (value ++ ['\n']) with
  | none => rfl
  | some t => rfl

/-- Witness for the amended C8: key `K` with value `100.0` (outside the
claimed range) is parsed and folded. -/
theorem updateRecords_single_record_applied :
    updateRecords (['K'] ++ ';' :: ("100.0".toList ++ ['\n'])) [] =
      match fromChars ("100.0".toList ++ ['\n']) with
      | none => []
      | some t => [(['K'], statOfOne t)] :=
  updateRecords_single_record ['K'] ("100.0".toList) (by decide) (by decide) (by decide)
    (by decide)

/-- Counterexample for C8 as stated: the record `K;100.0` has a value outside
`[-99.9, 99.9]` (and one the claimed shape `-?\d{1,2}\.\d` does not produce),
yet it is not skipped: it creates the key `K` with statistic `100`. -/
theorem updateRecords_folds_out_of_range :
    updateRecords ("K;100.0\n".toList) [] = [(['K'], Stat.mk 100 100 100 1)] ∧
      ¬ ((100 : ℚ) ≤ 999 / 10) := by
  with_unfolding_all decide

/-! ### Formatter (C6, C7) and resource ownership (C10) -/

/-- C6 is a code bug: on an empty aggregate, `printRecords` computes
`std::prev(sortedStations.end())` on an empty vector — decrementing the
begin iterator, which is undefined behaviour (in practice the loop
dereferences a garbage iterator and `Records::at` throws) — instead of
printing the pair of empty braces the specification promises.  (The run
cannot even reach this point from an empty input file: `mmap` with length 0
fails in the `MemoryMap` constructor.)  In the model the undefined formatter
result is `none`, not the claimed two-character output. -/
theorem printRecords_empty_undefined :
    printRecords ([] : RecordsM) = none ∧ printRecords ([] : RecordsM) ≠ some "\x7b\x7d" := by
  decide

lemma rhe_close (x : ℚ) : |(rhe x : ℚ) - x| ≤ 1 / 2 := by
  have h0 : (⌊x⌋ : ℚ) ≤ x := Int.floor_le x
  have h1 : x < ⌊x⌋ + 1 := Int.lt_floor_add_one x
  simp only [rhe]
  split_ifs with ha hb hc
  · rw [abs_le]
    constructor <;> linarith
  · rw [abs_le]
    push_cast
    constructor <;> linarith
  · have heq : x - (⌊x⌋ : ℚ) = 1 / 2 := le_antisymm (not_lt.1 hb) (not_lt.1 ha)
    rw [abs_le]
    constructor <;> linarith
  · have heq : x - (⌊x⌋ : ℚ) = 1 / 2 := le_antisymm (not_lt.1 hb) (not_lt.1 ha)
    rw [abs_le]
    push_cast
    constructor <;> linarith

/-- C7 as amended: each numeric field is printed by rounding the computed
value (exact-rational model of the `float`) to one fractional digit to the
NEAREST representable tenth, ties to even — the rounding of `{:.1f}` — so the
printed tenth is within `0.05` of the value; it is not round toward positive
infinity. -/
theorem dec1_nearest_within_half_ulp (q : ℚ) : |(dec1 q : ℚ) / 10 - q| ≤ 1 / 20 := by
  have h := rhe_close (10 * q)
  have heq : (dec1 q : ℚ) / 10 - q = ((rhe (10 * q) : ℚ) - 10 * q) / 10 := by
    unfold dec1
    ring
  rw [heq, abs_div, abs_of_nonneg (show (0 : ℚ) ≤ 10 by norm_num)]
  linarith

/-- Counterexample for C7 as stated: records `K;0.2` and `K;0.3` yield
`sum = 1/2`, `count = 2`, hence the true mean `1/4`.  Round toward positive
infinity at one fractional digit demands the tenths digit `⌈10 · 1/4⌉ = 3`
(printing `0.3`), but the program's `{:.1f}` rounds `0.25` to even and prints
`0.2`: the full output is `{K=0.2/0.2/0.3}`. -/
theorem printRecords_rounds_to_even_not_up :
    updateRecords ("K;0.2\nK;0.3\n".toList) [] =
        [(['K'], Stat.mk (1 / 5) (3 / 10) (1 / 2) 2)] ∧
      printRecords (updateRecords ("K;0.2\nK;0.3\n".toList) []) =
        some "\x7bK=0.2/0.2/0.3\x7d" ∧
      specCeilRound ((1 / 2 : ℚ) / 2) = 3 ∧
      dec1 ((1 / 2 : ℚ) / 2) = 2 := by
  with_unfolding_all decide

/-- C10. Move construction and move assignment of `MoveOnly<T, empty>`
transfer the stored value and leave the moved-from wrapper holding the
`empty` sentinel (`std::exchange`), so a resource handle is held by one
wrapper at a time; with `FileHandler`'s sentinel `-1`, the destructor of a
moved-from handler does not `close` (it closes only descriptors `>= 0`). -/
theorem moveOnly_transfers_ownership :
    (∀ (T : Type) (empty : T) (x : MoveOnly T),
        (moveConstruct empty x).1.value = x.value ∧ (moveConstruct empty x).2.value = empty) ∧
    (∀ (T : Type) (empty : T) (d x : MoveOnly T),
        (moveAssign empty d x).1.value = x.value ∧ (moveAssign empty d x).2.value = empty) ∧
    fhClosesFd ⟨(-1 : ℤ)⟩ = false :=
  ⟨fun _ _ _ => ⟨rfl, rfl⟩, fun _ _ _ _ => ⟨rfl, rfl⟩, rfl⟩
